import Mathlib

/-!
Shallow embedding of the C verification fixtures of the mcp4eda repository
(directories c2rtl-verify-mcp/examples, cbmc-mcp and cbmc-tests) and proofs
of the specified properties.

Machine integers: a C `int` is a 32-bit two's-complement value, modelled as
an unbounded `Int` together with the range predicate `isInt32`; every C
operation that can overflow is wrapped with `wrap32`, the reduction of an
unbounded integer into `[-2^31, 2^31)` modulo `2^32`.  Out-of-bounds array
reads (undefined behaviour in C) are modelled with `Option`: a loop that
reads past the end of its list returns `none`.
-/

namespace Mcp4eda

/-- Two's-complement reduction of an unbounded integer into the 32-bit
signed range `[-2147483648, 2147483648)`, modulo `2^32`. -/
def wrap32 (z : Int) : Int := (z + 2147483648) % 4294967296 - 2147483648

/-- The value `z` is representable as a 32-bit signed integer. -/
def isInt32 (z : Int) : Prop := -2147483648 ≤ z ∧ z ≤ 2147483647

instance (z : Int) : Decidable (isInt32 z) := by
  unfold isInt32
  exact inferInstance

/-- Clamping of an unbounded integer to the interval `[lo, hi]`; this is the
specification-side operation `clamp(z, INT_MIN, INT_MAX)`. -/
def clamp (z lo hi : Int) : Int := if z < lo then lo else if hi < z then hi else z

/-! ### c2rtl-verify-mcp/examples/adder.c -/

/-- C function `add` of adder.c: plain `int` addition, two's-complement wrap
on overflow. -/
def add (a b : Int) : Int := wrap32 (a + b)

/-- C function `add_sat` of adder.c, translated literally.  The C source is

  long long result = (long long)a + (long long)b;
  if (result > 0x7FFFFFFF) return 0x7FFFFFFF;
  if (result < -0x80000000) return -0x80000000;
  return (int)result;

For 32-bit `int` inputs the `long long` sum is exact.  The constant
`0x80000000` does not fit in `int`, so it has C type `unsigned int` with
value `2^31`, and the unary minus is performed in `unsigned int` arithmetic:
`-0x80000000` again has the value `2^31 = 2147483648`.  In the comparison it
is converted (value-preservingly) to `long long`, so the second guard
compares `result < 2147483648`.  In the `return -0x80000000` statement the
`unsigned int` value `2147483648` is converted to `int`, giving
`-2147483648` under the usual implementation-defined two's-complement
conversion.  The final `(int)result` cast is `wrap32`. -/
def add_sat (a b : Int) : Int :=
  let result := a + b
  if result > 2147483647 then 2147483647
  else if result < 2147483648 then -2147483648
  else wrap32 result

/-! ### cbmc-tests/test_overflow.c -/

/-- C function `add_overflow` of test_overflow.c: unchecked `int` addition. -/
def add_overflow (a b : Int) : Int := wrap32 (a + b)

/-- C function `safe_add` of test_overflow.c.  The guarded subtractions
`INT_MAX - a` (evaluated only when `a > 0`) and `INT_MIN - a` (evaluated
only when `a < 0`) never overflow, so they are exact; the final `a + b` is
`int` addition and keeps its wrap. -/
def safe_add (a b : Int) : Int :=
  if a > 0 ∧ b > 2147483647 - a then 2147483647
  else if a < 0 ∧ b < -2147483648 - a then -2147483648
  else wrap32 (a + b)

/-! ### cbmc-tests/test_assertion.c -/

/-- C function `max` of test_assertion.c. -/
def max (a b : Int) : Int := if a > b then a else b

/-- C function `test_max` of test_assertion.c: runs four assertions in
order and halts at the first failing one; `Except.error k` means the k-th
assertion was violated, `Except.ok ()` means the driver ran to completion. -/
def test_max : Except Nat Unit :=
  if ¬ (max 5 3 = 5) then Except.error 1
  else if ¬ (max 2 7 = 7) then Except.error 2
  else if ¬ (max 4 4 = 4) then Except.error 3
  else if ¬ (max (-1) (-2) = -2) then Except.error 4
  else Except.ok ()

/-- C function `main` of test_assertion.c: calls `test_max()` and then
returns 0; it reaches the `return 0` only if no assertion fired. -/
def test_assertion_main : Except Nat Int :=
  match test_max with
  | Except.ok _ => Except.ok 0
  | Except.error e => Except.error e

/-! ### cbmc-tests/test_equivalence.c and cbmc-mcp/examples/equivalence_harness.c -/

/-- C function `abs_v1` (identical in test_equivalence.c and
equivalence_harness.c): branching absolute value; `-x` is `int` negation
and wraps at `INT_MIN`. -/
def abs_v1 (x : Int) : Int := if x < 0 then wrap32 (-x) else x

/-- C function `abs_v2`: the same computation written with the conditional
operator. -/
def abs_v2 (x : Int) : Int := if x < 0 then wrap32 (-x) else x

/-- C function `check_equivalence` (and the identical `test_equivalence`):
given the unconstrained symbolic input `x`, the truth value of the assertion
`result1 == result2`. -/
def check_equivalence (x : Int) : Bool := decide (abs_v1 x = abs_v2 x)

/-! ### cbmc-mcp/test_cbmc.c -/

/-- C function `abs_value` of test_cbmc.c. -/
def abs_value (x : Int) : Int := if x < 0 then wrap32 (-x) else x

/-! ### cbmc-mcp/examples/array_bounds.c -/

/-- Loop of `sum_array`: `for (int i = 0; i <= size; i++) sum += arr[i];`
unrolled with fuel (`size + 1` iterations).  An out-of-bounds read yields
`none`; `sum += arr[i]` is `int` addition and wraps. -/
def sumLoop (arr : List Int) : Nat → Int → Nat → Option Int
  | 0, sum, _ => some sum
  | f + 1, sum, i =>
      match arr.get? i with
      | none => none
      | some v => sumLoop arr f (wrap32 (sum + v)) (i + 1)

/-- C function `sum_array` of array_bounds.c.  Its loop condition is
`i <= size` (the source comments it with `Bug: should be i < size`), so it
performs `size + 1` reads, at indices `0 .. size`. -/
def sum_array (arr : List Int) (size : Nat) : Option Int :=
  sumLoop arr (size + 1) 0 0

/-- C function `safe_array_access` of array_bounds.c: builds
`{1,2,3,4,5}`, calls `sum_array(arr, 5)` and asserts `result == 15`.
`none` means the call ran into undefined behaviour before the assertion;
`some b` gives the truth value of the assertion. -/
def safe_array_access : Option Bool :=
  match sum_array [1, 2, 3, 4, 5] 5 with
  | none => none
  | some r => some (decide (r = 15))

/-! ### c2rtl-verify-mcp/examples/fir_filter.c, TAPS = 4 -/

/-- Memory visible to `fir_filter`: the two arrays passed by pointer. -/
structure FirState where
  coeffs : List Int
  delay : List Int

/-- Shift loop of `fir_filter`: `for (int i = TAPS-1; i > 0; i--)
delay_line[i] = delay_line[i-1];` counting `i` down from the fuel value. -/
def firShiftLoop : Nat → FirState → FirState
  | 0, s => s
  | i + 1, s => firShiftLoop i { s with delay := s.delay.set (i + 1) (s.delay.getD i 0) }

/-- Accumulation loop of `fir_filter`:
`for (int i = 0; i < TAPS; i++) result += delay_line[i] * coeffs[i];`
with `int` multiplication and `int` addition, both wrapping. -/
def firMacLoop (s : FirState) : Nat → Int → Nat → Int
  | 0, acc, _ => acc
  | f + 1, acc, i =>
      firMacLoop s f (wrap32 (acc + wrap32 (s.delay.getD i 0 * s.coeffs.getD i 0))) (i + 1)

/-- C function `fir_filter` of fir_filter.c: shifts the delay line, stores
the input at position 0, accumulates the products and returns the
accumulator arithmetically shifted right by 16 bits (`Int.fdiv _ 65536` is
the arithmetic shift on a value already reduced to the 32-bit range),
together with the final memory state. -/
def fir_filter (input : Int) (s : FirState) : Int × FirState :=
  let s1 := firShiftLoop 3 s
  let s2 : FirState := { s1 with delay := s1.delay.set 0 input }
  (Int.fdiv (firMacLoop s2 4 0 0) 65536, s2)

/-- Specification-side inner product of the spec sentence: the sum over i
of `d[i] * c[i]` computed in 32-bit two's-complement arithmetic. -/
def innerProduct32 (d c : List Int) : Int :=
  (List.zip d c).foldl (fun acc p => wrap32 (acc + wrap32 (p.1 * p.2))) 0

/-! ### cbmc-mcp/examples/bubble_sort_v1.c -/

/-- Body of the inner loop of `bubble_sort`: compare-and-swap of the
adjacent elements at positions `j` and `j + 1`.  All executions reached
from `bubble_sort` with `n` equal to the array length have `j + 1 <
arr.length`, so the `getD` defaults are never consulted. -/
def sortStep (arr : List Int) (j : Nat) : List Int :=
  if arr.getD j 0 > arr.getD (j + 1) 0 then
    (arr.set j (arr.getD (j + 1) 0)).set (j + 1) (arr.getD j 0)
  else arr

/-- Inner loop of `bubble_sort`: `for (int j = 0; j < n - i - 1; j++)`,
with the remaining iteration count as fuel. -/
def innerLoop : Nat → List Int → Nat → List Int
  | 0, arr, _ => arr
  | f + 1, arr, j => innerLoop f (sortStep arr j) (j + 1)

/-- Outer loop of `bubble_sort`: `for (int i = 0; i < n - 1; i++)` running
the inner loop with bound `n - i - 1`, with the remaining iteration count
as fuel. -/
def outerLoop (n : Nat) : Nat → List Int → Nat → List Int
  | 0, arr, _ => arr
  | f + 1, arr, i => outerLoop n f (innerLoop (n - i - 1) arr 0) (i + 1)

/-- C function `bubble_sort` of bubble_sort_v1.c: `n - 1` outer
iterations starting at `i = 0`. -/
def bubble_sort (arr : List Int) (n : Nat) : List Int :=
  outerLoop n (n - 1) arr 0

/-- One structural bubbling pass: the net effect of the inner loop on the
prefix it touches, used to reason about `innerLoop`. -/
def onePass : List Int → List Int
  | [] => []
  | [a] => [a]
  | a :: b :: t => if a > b then b :: onePass (a :: t) else a :: onePass (b :: t)
termination_by l => l.length

/-- Outer loop of `bubble_sort` rephrased structurally: with `n` equal to
the array length, the remaining fuel `f` determines the current inner
bound, which is `f` on the next iteration. -/
def passes : Nat → List Int → List Int
  | 0, arr => arr
  | f + 1, arr => passes f (innerLoop (f + 1) arr 0)

/-! ### Supporting lemmas -/

lemma wrap32_eq_self {z : Int} (h1 : -2147483648 ≤ z) (h2 : z ≤ 2147483647) :
    wrap32 z = z := by
  unfold wrap32
  omega

lemma sumLoop_past_end (arr : List Int) :
    ∀ f i sum, i + f = arr.length → sumLoop arr (f + 1) sum i = none := by
  intro f
  induction f with
  | zero =>
      intro i sum hi
      have h0 : arr.get? i = none := List.get?_eq_none.mpr (by omega)
      simp only [sumLoop, h0]
  | succ f ih =>
      intro i sum hi
      have hlt : i < arr.length := by omega
      have hv2 : arr.get? i = some (arr.get ⟨i, hlt⟩) := List.get?_eq_get hlt
      simp only [sumLoop, hv2]
      exact ih (i + 1) _ (by omega)

lemma firShiftLoop_coeffs : ∀ (n : Nat) (s : FirState), (firShiftLoop n s).coeffs = s.coeffs := by
  intro n
  induction n with
  | zero => intro s; rfl
  | succ n ih => intro s; exact ih _

lemma getD_append_cons (pre : List Int) (c : Int) (l : List Int) :
    (pre ++ c :: l).getD pre.length 0 = c := by
  induction pre with
  | nil => rfl
  | cons p pre ih =>
      simp only [List.cons_append, List.length_cons, List.getD_cons_succ]
      exact ih

lemma set_append_cons (pre : List Int) (c x : Int) (l : List Int) :
    (pre ++ c :: l).set pre.length x = pre ++ x :: l := by
  induction pre with
  | nil => rfl
  | cons p pre ih =>
      simp only [List.cons_append, List.length_cons, List.set_cons_succ]
      rw [ih]

lemma sortStep_append (pre : List Int) (a b : Int) (t : List Int) :
    sortStep (pre ++ a :: b :: t) pre.length =
      pre ++ (if a > b then b :: a :: t else a :: b :: t) := by
  have hga : (pre ++ a :: b :: t).getD pre.length 0 = a := getD_append_cons pre a (b :: t)
  have hgb : (pre ++ a :: b :: t).getD (pre.length + 1) 0 = b := by
    have h := getD_append_cons (pre ++ [a]) b t
    simpa [List.append_assoc] using h
  have hsa : (pre ++ a :: b :: t).set pre.length b = pre ++ b :: b :: t :=
    set_append_cons pre a b (b :: t)
  have hsb : (pre ++ b :: b :: t).set (pre.length + 1) a = pre ++ b :: a :: t := by
    have h := set_append_cons (pre ++ [b]) b a t
    simp only [List.append_assoc, List.singleton_append, List.length_append,
      List.length_singleton] at h
    exact h
  unfold sortStep
  rw [hga, hgb]
  split_ifs with h
  · rw [hsa, hsb]
  · rfl

lemma innerLoop_append : ∀ (f : Nat) (pre mid suf : List Int), mid.length = f + 1 →
    innerLoop f (pre ++ mid ++ suf) pre.length = pre ++ onePass mid ++ suf := by
  intro f
  induction f with
  | zero =>
      intro pre mid suf hm
      obtain ⟨a, rfl⟩ := List.length_eq_one.mp hm
      simp [innerLoop, onePass]
  | succ f ih =>
      intro pre mid suf hm
      match mid, hm with
      | a :: b :: t, hm =>
        have ht : t.length + 2 = f + 2 := by simpa using hm
        simp only [innerLoop]
        rw [List.append_assoc]
        have hshape : a :: b :: t ++ suf = a :: b :: (t ++ suf) := rfl
        rw [hshape, sortStep_append pre a b (t ++ suf)]
        by_cases h : a > b
        · rw [if_pos h]
          have h1 : pre ++ b :: a :: (t ++ suf) = (pre ++ [b]) ++ (a :: t) ++ suf := by
            simp
          have h2 : pre.length + 1 = (pre ++ [b]).length := by simp
          rw [h1, h2, ih (pre ++ [b]) (a :: t) suf (by simp; omega)]
          have h3 : onePass (a :: b :: t) = b :: onePass (a :: t) := by
            simp [onePass, h]
          rw [h3]
          simp
        · rw [if_neg h]
          have h1 : pre ++ a :: b :: (t ++ suf) = (pre ++ [a]) ++ (b :: t) ++ suf := by
            simp
          have h2 : pre.length + 1 = (pre ++ [a]).length := by simp
          rw [h1, h2, ih (pre ++ [a]) (b :: t) suf (by simp; omega)]
          have h3 : onePass (a :: b :: t) = a :: onePass (b :: t) := by
            simp [onePass, h]
          rw [h3]
          simp

lemma onePass_perm_cons : ∀ (t : List Int) (a : Int), List.Perm (onePass (a :: t)) (a :: t) := by
  intro t
  induction t with
  | nil =>
      intro a
      simp [onePass]
  | cons b t ih =>
      intro a
      by_cases h : a > b
      · have he : onePass (a :: b :: t) = b :: onePass (a :: t) := by simp [onePass, h]
        rw [he]
        exact ((ih a).cons b).trans (List.Perm.swap a b t)
      · have he : onePass (a :: b :: t) = a :: onePass (b :: t) := by simp [onePass, h]
        rw [he]
        exact (ih b).cons a

lemma onePass_perm (l : List Int) : List.Perm (onePass l) l := by
  cases l with
  | nil => simp [onePass]
  | cons a t => exact onePass_perm_cons t a

lemma onePass_last : ∀ (t : List Int) (a : Int),
    ∃ ys m, onePass (a :: t) = ys ++ [m] ∧ ∀ x ∈ ys ++ [m], x ≤ m := by
  intro t
  induction t with
  | nil =>
      intro a
      exact ⟨[], a, by simp [onePass], by simp⟩
  | cons b t ih =>
      intro a
      by_cases h : a > b
      · obtain ⟨ys, m, heq, hle⟩ := ih a
        have ham : a ≤ m := by
          have : a ∈ ys ++ [m] := by
            rw [← heq]
            exact (onePass_perm_cons t a).mem_iff.mpr (by simp)
          exact hle a this
        refine ⟨b :: ys, m, ?_, ?_⟩
        · have he : onePass (a :: b :: t) = b :: onePass (a :: t) := by simp [onePass, h]
          rw [he, heq]
          rfl
        · intro x hx
          rcases (by simpa using hx : x = b ∨ x ∈ ys ++ [m]) with rfl | hx2
          · omega
          · exact hle x hx2
      · obtain ⟨ys, m, heq, hle⟩ := ih b
        have hbm : b ≤ m := by
          have : b ∈ ys ++ [m] := by
            rw [← heq]
            exact (onePass_perm_cons t b).mem_iff.mpr (by simp)
          exact hle b this
        refine ⟨a :: ys, m, ?_, ?_⟩
        · have he : onePass (a :: b :: t) = a :: onePass (b :: t) := by simp [onePass, h]
          rw [he, heq]
          rfl
        · intro x hx
          rcases (by simpa using hx : x = a ∨ x ∈ ys ++ [m]) with rfl | hx2
          · omega
          · exact hle x hx2

lemma outerLoop_eq_passes (n : Nat) : ∀ (f i : Nat) (arr : List Int), f + i + 1 = n →
    outerLoop n f arr i = passes f arr := by
  intro f
  induction f with
  | zero => intro i arr h; rfl
  | succ f ih =>
      intro i arr h
      simp only [outerLoop, passes]
      have hb : n - i - 1 = f + 1 := by omega
      rw [hb]
      exact ih (i + 1) _ (by omega)

lemma passes_step (f : Nat) (arr : List Int) (h : f + 2 ≤ arr.length) :
    passes (f + 1) arr = passes f (onePass (arr.take (f + 2)) ++ arr.drop (f + 2)) := by
  simp only [passes]
  congr 1
  have hlen : (arr.take (f + 2)).length = f + 2 := by
    simp [List.length_take]
    omega
  have hin := innerLoop_append (f + 1) [] (arr.take (f + 2)) (arr.drop (f + 2)) hlen
  simp only [List.nil_append, List.length_nil] at hin
  rw [List.take_append_drop] at hin
  exact hin

lemma passes_correct : ∀ (f : Nat) (arr : List Int), f + 1 ≤ arr.length →
    List.Sorted (· ≤ ·) (arr.drop (f + 1)) →
    (∀ x ∈ arr.take (f + 1), ∀ y ∈ arr.drop (f + 1), x ≤ y) →
    List.Sorted (· ≤ ·) (passes f arr) ∧ List.Perm (passes f arr) arr := by
  intro f
  induction f with
  | zero =>
      intro arr hlen hsorted hsep
      match arr, hlen with
      | a :: t, _ =>
        simp only [passes]
        refine ⟨?_, List.Perm.refl _⟩
        rw [List.sorted_cons]
        refine ⟨?_, by simpa using hsorted⟩
        intro b hb
        exact hsep a (by simp) b (by simpa using hb)
  | succ f ih =>
      intro arr hlen hsorted hsep
      set front := arr.take (f + 2) with hfront
      set back := arr.drop (f + 2) with hback
      have hflen : front.length = f + 2 := by
        simp [hfront, List.length_take]
        omega
      have hfne : ∃ a t, front = a :: t := by
        match front, hflen with
        | a :: t, _ => exact ⟨a, t, rfl⟩
      obtain ⟨a, t, hat⟩ := hfne
      obtain ⟨ys, m, heq, hle⟩ := onePass_last t a
      have hperm1 : List.Perm (onePass front) front := onePass_perm front
      have hplen : (onePass front).length = f + 2 := by
        rw [hperm1.length_eq, hflen]
      have hyslen : ys.length = f + 1 := by
        rw [hat, heq] at hplen
        simp at hplen
        omega
      have harr2 : passes (f + 1) arr = passes f (onePass front ++ back) :=
        passes_step f arr hlen
      set arr2 := onePass front ++ back with harr2def
      have hmem_front : ∀ x ∈ onePass front, x ∈ front := fun x hx => hperm1.mem_iff.mp hx
      have hmax : ∀ x ∈ onePass front, x ≤ m := by
        intro x hx
        rw [hat, heq] at hx
        exact hle x hx
      have hm_in_front : m ∈ front := by
        apply hmem_front
        rw [hat, heq]
        simp
      have hsplit2 : arr2 = ys ++ (m :: back) := by
        rw [harr2def, hat, heq]
        simp
      have htake2 : arr2.take (f + 1) = ys := by
        rw [hsplit2]
        rw [List.take_left' hyslen]
      have hdrop2 : arr2.drop (f + 1) = m :: back := by
        rw [hsplit2]
        rw [List.drop_left' hyslen]
      have hlen2 : f + 1 ≤ arr2.length := by
        rw [harr2def]
        simp [hplen]
        omega
      have hsorted2 : List.Sorted (· ≤ ·) (arr2.drop (f + 1)) := by
        rw [hdrop2, List.sorted_cons]
        refine ⟨?_, hsorted⟩
        intro b hb
        exact hsep m (hat ▸ hm_in_front) b hb
      have hsep2 : ∀ x ∈ arr2.take (f + 1), ∀ y ∈ arr2.drop (f + 1), x ≤ y := by
        rw [htake2, hdrop2]
        intro x hx y hy
        have hxop : x ∈ onePass front := by
          rw [hat, heq]
          exact List.mem_append_left _ hx
        rcases List.mem_cons.mp hy with rfl | hyb
        · exact hmax x hxop
        · exact hsep x (hat ▸ hmem_front x hxop) y hyb
      obtain ⟨hs2, hp2⟩ := ih arr2 hlen2 hsorted2 hsep2
      rw [harr2]
      refine ⟨hs2, hp2.trans ?_⟩
      calc List.Perm arr2 (front ++ back) := hperm1.append_right back
        _ = arr := List.take_append_drop _ _

lemma bubble_sort_correct (arr : List Int) :
    List.Sorted (· ≤ ·) (bubble_sort arr arr.length) ∧
      List.Perm (bubble_sort arr arr.length) arr := by
  cases arr with
  | nil => exact ⟨List.sorted_nil, List.Perm.refl _⟩
  | cons a t =>
      have hn : (a :: t).length = t.length + 1 := rfl
      have h1 : bubble_sort (a :: t) (a :: t).length = passes t.length (a :: t) := by
        unfold bubble_sort
        rw [hn]
        exact outerLoop_eq_passes (t.length + 1) t.length 0 (a :: t) (by omega)
      rw [h1]
      apply passes_correct t.length (a :: t) (by simp)
      · rw [show t.length + 1 = (a :: t).length from rfl, List.drop_length]
        exact List.sorted_nil
      · rw [show t.length + 1 = (a :: t).length from rfl, List.drop_length]
        intro x hx y hy
        simp at hy

/-! ### Claim theorems -/

/-- C1: the claim states that `add_sat(x, y)` equals
`clamp(x + y, INT_MIN, INT_MAX)` for every pair of 32-bit inputs.  The code
contradicts this: since the C constant `-0x80000000` is the positive
`unsigned int` value `2^31`, the second guard of `add_sat` fires whenever
the first did not, so already at `x = 1, y = 2` the function returns
`INT_MIN` instead of the clamped sum `3`. -/
theorem add_sat_at_one_two :
    add_sat 1 2 = -2147483648 ∧
    clamp (1 + 2) (-2147483648) 2147483647 = 3 ∧
    add_sat 1 2 ≠ clamp (1 + 2) (-2147483648) 2147483647 := by
  refine ⟨by decide, by decide, by decide⟩

/-- C2: the claim states that with `N` equal to the length of the sequence,
`sum_array(s, N)` reads only in-bounds indices and returns the sum of the
first `N` elements, so the assertion of `safe_array_access` holds.  The
code contradicts this (its own comment reads `Bug: should be i < size`):
the loop condition `i <= size` makes the last iteration read `s[N]`, one
past the end, so the run hits undefined behaviour (`none` in the embedding)
for every sequence, in particular for `[1,2,3,4,5]` with `N = 5`, and the
assertion is never reached. -/
theorem sum_array_out_of_bounds :
    (∀ s : List Int, sum_array s s.length = none) ∧
    sum_array [1, 2, 3, 4, 5] 5 = none ∧
    safe_array_access = none := by
  refine ⟨?_, by decide, by decide⟩
  intro s
  unfold sum_array
  exact sumLoop_past_end s s.length 0 0 (by omega)

/-- C3: for every sequence `s` of 32-bit integers and `n` equal to its
length, `bubble_sort(s, n)` is a non-decreasing permutation of `s`, and
`bubble_sort([5,2,8,1,9], 5)` yields `[1,2,5,8,9]`. -/
theorem bubble_sort_sorts (s : List Int) (n : Nat) (h : n = s.length) :
    List.Sorted (· ≤ ·) (bubble_sort s n) ∧ List.Perm (bubble_sort s n) s ∧
    bubble_sort [5, 2, 8, 1, 9] 5 = [1, 2, 5, 8, 9] := by
  subst h
  exact ⟨(bubble_sort_correct s).1, (bubble_sort_correct s).2, by decide⟩

theorem bubble_sort_sorts_witness :
    List.Sorted (· ≤ ·) (bubble_sort [3, 1, 2] 3) ∧
      List.Perm (bubble_sort [3, 1, 2] 3) [3, 1, 2] ∧
      bubble_sort [5, 2, 8, 1, 9] 5 = [1, 2, 5, 8, 9] :=
  bubble_sort_sorts [3, 1, 2] 3 rfl

/-- C4: for every 32-bit input `x`, including `INT_MIN` (the range
hypothesis `isInt32 x` includes `-2^31`), `abs_v1 x` and `abs_v2 x` are
bitwise equal, so the assertion `result1 == result2` of the equivalence
drivers holds on an unconstrained input. -/
theorem abs_v1_eq_abs_v2 (x : Int) (hx : isInt32 x) :
    abs_v1 x = abs_v2 x ∧ check_equivalence x = true := by
  have h : abs_v1 x = abs_v2 x := rfl
  exact ⟨h, by simp [check_equivalence, h]⟩

theorem abs_v1_eq_abs_v2_witness :
    abs_v1 (-2147483648) = abs_v2 (-2147483648) ∧
      check_equivalence (-2147483648) = true :=
  abs_v1_eq_abs_v2 (-2147483648) (by decide)

/-- C5: for all 32-bit `a` and `b`, `safe_add(a, b)` returns the exact sum
when it lies in `[INT_MIN, INT_MAX]`, `INT_MAX` when the exact sum is
larger, and `INT_MIN` when it is smaller; equivalently, it returns
`clamp(a + b, INT_MIN, INT_MAX)`. -/
theorem safe_add_clamps (a b : Int) (ha : isInt32 a) (hb : isInt32 b) :
    safe_add a b = clamp (a + b) (-2147483648) 2147483647 := by
  unfold isInt32 at ha hb
  unfold safe_add clamp wrap32
  split_ifs <;> omega

theorem safe_add_clamps_witness :
    safe_add 2147483647 1 = clamp (2147483647 + 1) (-2147483648) 2147483647 :=
  safe_add_clamps 2147483647 1 (by decide) (by decide)

/-- C6: `fir_filter` advances the delay line (afterwards `d[0]` is the
input and `d[i]` is the old `d[i-1]` for `1 ≤ i ≤ 3`), leaves the
coefficients alone, and returns the inner product of the updated delay
line with the coefficients, computed in 32-bit two's-complement arithmetic
and arithmetically shifted right by 16 bits. -/
theorem fir_filter_spec (x d0 d1 d2 d3 c0 c1 c2 c3 : Int) :
    fir_filter x ⟨[c0, c1, c2, c3], [d0, d1, d2, d3]⟩ =
      (Int.fdiv (innerProduct32 [x, d0, d1, d2] [c0, c1, c2, c3]) 65536,
        ⟨[c0, c1, c2, c3], [x, d0, d1, d2]⟩) := rfl

/-- C7: for every 32-bit `x` other than `INT_MIN`, `abs_value x` is
non-negative and equal to `x` or to `-x`; concretely `abs_value (-10) = 10`
and `abs_value 0 = 0`. -/
theorem abs_value_spec (x : Int) (hx : isInt32 x) (hne : x ≠ -2147483648) :
    0 ≤ abs_value x ∧ (abs_value x = x ∨ abs_value x = -x) ∧
    abs_value (-10) = 10 ∧ abs_value 0 = 0 := by
  unfold isInt32 at hx
  refine ⟨?_, ?_, by decide, by decide⟩
  · unfold abs_value
    split_ifs with h
    · rw [wrap32_eq_self (by omega) (by omega)]
      omega
    · omega
  · unfold abs_value
    split_ifs with h
    · right
      rw [wrap32_eq_self (by omega) (by omega)]
    · left
      rfl

theorem abs_value_spec_witness :
    0 ≤ abs_value (-10) ∧ (abs_value (-10) = -10 ∨ abs_value (-10) = -(-10)) ∧
      abs_value (-10) = 10 ∧ abs_value 0 = 0 :=
  abs_value_spec (-10) (by decide) (by decide)

/-- C8: for all 32-bit `x` and `y`, `max x y` is at least `x`, at least
`y`, and equal to one of them; concretely `max 5 3 = 5`, `max 2 7 = 7` and
`max 4 4 = 4`. -/
theorem max_spec (x y : Int) (hx : isInt32 x) (hy : isInt32 y) :
    x ≤ max x y ∧ y ≤ max x y ∧ (max x y = x ∨ max x y = y) ∧
    max 5 3 = 5 ∧ max 2 7 = 7 ∧ max 4 4 = 4 := by
  refine ⟨?_, ?_, ?_, by decide, by decide, by decide⟩
  · unfold max
    split_ifs <;> omega
  · unfold max
    split_ifs <;> omega
  · unfold max
    split_ifs
    · left
      rfl
    · right
      rfl

theorem max_spec_witness :
    5 ≤ max 5 3 ∧ 3 ≤ max 5 3 ∧ (max 5 3 = 5 ∨ max 5 3 = 3) ∧
      max 5 3 = 5 ∧ max 2 7 = 7 ∧ max 4 4 = 4 :=
  max_spec 5 3 (by decide) (by decide)

/-- C9: the driver `test_max` passes its first three assertions
(`max 5 3 = 5`, `max 2 7 = 7`, `max 4 4 = 4`) and halts at the fourth,
since `max (-1) (-2) = -1` while the assertion demands `-2`; hence `main`
of test_assertion.c does not run to normal completion. -/
theorem test_max_fails_fourth :
    max 5 3 = 5 ∧ max 2 7 = 7 ∧ max 4 4 = 4 ∧ max (-1) (-2) = -1 ∧
    test_max = Except.error 4 ∧ test_assertion_main = Except.error 4 := by
  refine ⟨by decide, by decide, by decide, by decide, rfl, rfl⟩

/-- C10: `fir_filter` never writes to the coefficient array: the
coefficients in the state after the call are exactly the coefficients
before it. -/
theorem fir_filter_preserves_coeffs (x : Int) (s : FirState) :
    ((fir_filter x s).2).coeffs = s.coeffs := by
  have h := firShiftLoop_coeffs 3 s
  simp [fir_filter, h]

end Mcp4eda
